import Mathlib

/-!
# Verification of `configarr` (XML config patcher)

Shallow embedding of `cmd/configarr/main.go`: an order-preserving document
model (`Config`), a codec for the flat XML subset the program handles
(`decode` / `encode`, modelling the program's custom `UnmarshalXML` /
`MarshalXML` driven by Go's `encoding/xml` tokenizer in strict mode), the
environment-override engine (`updateConfigWithEnv`), and the top-level
pipeline (`run`, plus the legacy variant `runLegacy` that the repository
also carries).

Go maps are embedded as association lists whose abstract content is the
`mapLookup` function; `mapInsert` overwrites in place (so key order of the
list is immaterial to lookup, matching Go's unordered maps). Machine
strings are Lean `String`s; file I/O is a single `Option String` cell
holding the configuration file's bytes.
-/

namespace Configarr

/-- Decidable equality for `Except`, used to evaluate concrete runs. -/
instance {ε α : Type} [DecidableEq ε] [DecidableEq α] : DecidableEq (Except ε α) :=
  fun x y =>
    match x, y with
    | .ok a, .ok b =>
      if h : a = b then .isTrue (by rw [h]) else .isFalse (by simp [h])
    | .error a, .error b =>
      if h : a = b then .isTrue (by rw [h]) else .isFalse (by simp [h])
    | .ok _, .error _ => .isFalse (fun h => Except.noConfusion h)
    | .error _, .ok _ => .isFalse (fun h => Except.noConfusion h)

/-- `Config` from main.go: `Properties map[string]string` (embedded as an
association list, lookup-extensional) and `Keys []string` tracking element
order. `XMLName` carries no data and is dropped. -/
structure Config where
  Properties : List (String × String)
  Keys : List String
deriving DecidableEq, Repr

/-- Go map read `m[k]` with `ok` flag: first binding for `k`. -/
def mapLookup : List (String × String) → String → Option String
  | [], _ => none
  | (a, b) :: t, k => if a = k then some b else mapLookup t k

/-- Go map write `m[k] = v`: overwrite the binding in place, or append. -/
def mapInsert : List (String × String) → String → String → List (String × String)
  | [], k, v => [(k, v)]
  | (a, b) :: t, k, v => if a = k then (k, v) :: t else (a, b) :: mapInsert t k v

/-- Go `strings.ToUpper` (character-level model; Lean's `Char.toUpper`
handles the ASCII range, which covers this program's prefixes). -/
def strToUpper (s : String) : String :=
  ⟨s.data.map Char.toUpper⟩

/-- Go `strings.HasPrefix p s` (character-level model; byte-level and
character-level prefix tests agree on valid UTF-8). -/
def strHasPrefix (s pre : String) : Bool :=
  pre.data.isPrefixOf s.data

/-- Go `strings.SplitN(s, "=", 2)` together with the `len(parts) == 2`
check: `some (before, after)` splitting at the first `=`, `none` when `s`
contains no `=`. -/
def splitN2 (s : String) : Option (String × String) :=
  if s.data.contains '=' then
    some (⟨s.data.takeWhile (· ≠ '=')⟩, ⟨(s.data.dropWhile (· ≠ '=')).tail⟩)
  else
    none

/-- The loop body of `updateConfigWithEnv` (main.go lines 113-141), one
environment variable at a time, threading the document and the
`changedProperties` map. Logging does not affect state and is dropped. -/
def updateAux (envPfx : String) : List String → Config → List (String × String) →
    Config × List (String × String)
  | [], cfg, changed => (cfg, changed)
  | envVar :: rest, cfg, changed =>
    if strHasPrefix envVar envPfx then
      match splitN2 (envVar.drop envPfx.length) with
      | none => updateAux envPfx rest cfg changed
      | some (_identifier, kv) =>
        match splitN2 kv with
        | none => updateAux envPfx rest cfg changed
        | some (envKey, envValue) =>
          match mapLookup cfg.Properties envKey with
          | some currentValue =>
            if envValue ≠ currentValue then
              updateAux envPfx rest
                ⟨mapInsert cfg.Properties envKey envValue, cfg.Keys⟩
                (mapInsert changed envKey envValue)
            else
              updateAux envPfx rest cfg changed
          | none => updateAux envPfx rest cfg changed
    else
      updateAux envPfx rest cfg changed

/-- `updateConfigWithEnv` (main.go line 109): uppercase the prefix once,
scan the environment in order, return the updated document and the map of
changed properties. -/
def updateConfigWithEnv (environ : List String) (config : Config) (pfx : String) :
    Config × List (String × String) :=
  updateAux (strToUpper pfx) environ config []

/-- The spec's six-step override algorithm (§4.3), written from the spec's
words to compare against `updateConfigWithEnv`. Besides the document and
the result mapping it also returns, in order, every assignment step 6
applied (used to state "last differing assignment"). -/
def specOverride (envPfx : String) : List String → Config → List (String × String) →
    List (String × String) → Config × List (String × String) × List (String × String)
  | [], doc, mapping, applied => (doc, mapping, applied)
  | raw :: more, doc, mapping, applied =>
    -- step 1: reject unless raw begins with the (uppercased) prefix
    if strHasPrefix raw envPfx then
      -- step 2: split the remainder on the first `=`
      match splitN2 (raw.drop envPfx.length) with
      | none => specOverride envPfx more doc mapping applied
      | some (_identifierPart, rest) =>
        -- step 3: split `rest` on the first `=`
        match splitN2 rest with
        | none => specOverride envPfx more doc mapping applied
        | some (propertyKey, propertyValue) =>
          -- step 4: skip silently unless the key already exists
          match mapLookup doc.Properties propertyKey with
          | none => specOverride envPfx more doc mapping applied
          | some existing =>
            -- step 5: identical value is a no-op
            if propertyValue = existing then
              specOverride envPfx more doc mapping applied
            else
              -- step 6: Document.set and record the change
              specOverride envPfx more
                ⟨mapInsert doc.Properties propertyKey propertyValue, doc.Keys⟩
                (mapInsert mapping propertyKey propertyValue)
                (applied ++ [(propertyKey, propertyValue)])
    else
      specOverride envPfx more doc mapping applied

/-- The value of the last assignment to `k` in an ordered assignment list. -/
def lastAssigned (l : List (String × String)) (k : String) : Option String :=
  l.foldl (fun acc p => if p.1 = k then some p.2 else acc) none

/-! ## Codec: encoder (`MarshalXML` under `xml.MarshalIndent(config, "", "  ")`) -/

/-- Valid XML character (Go `xml.isInCharacterRange`). -/
def isValidXmlChar (c : Char) : Bool :=
  let n := c.toNat
  n = 0x9 || n = 0xA || n = 0xD || (0x20 ≤ n && n ≤ 0xD7FF) ||
    (0xE000 ≤ n && n ≤ 0xFFFD) || (0x10000 ≤ n && n ≤ 0x10FFFF)

/-- Text escaping of one character, as Go's `xml.EscapeText` does for
character data: the five markup characters and the three whitespace
controls become entities, characters outside the XML character range are
replaced by U+FFFD, everything else passes through. -/
def escChar (c : Char) : List Char :=
  if c = '&' then "&amp;".data
  else if c = '<' then "&lt;".data
  else if c = '>' then "&gt;".data
  else if c = '\'' then "&#39;".data
  else if c = '"' then "&#34;".data
  else if c = '\t' then "&#x9;".data
  else if c = '\n' then "&#xA;".data
  else if c = '\r' then "&#xD;".data
  else if isValidXmlChar c then [c] else ['�']

/-- `xml.EscapeText` over a whole text value. -/
def escapeText (s : String) : String :=
  ⟨(s.data.map escChar).flatten⟩

/-- One child element as `MarshalIndent` renders it: a newline, two spaces
of indent, then `<key>escaped value</key>` on one line. -/
def childStr (k v : String) : String :=
  "\n  <" ++ k ++ ">" ++ escapeText v ++ "</" ++ k ++ ">"

/-- A flat document rendered the way `MarshalXML` + `MarshalIndent("", "  ")`
emit it, with the root element name as a parameter: children in order,
newline before the closing root tag when there is at least one child,
no trailing newline. -/
def render (root : String) (pairs : List (String × String)) : String :=
  "<" ++ root ++ ">" ++ String.join (pairs.map fun p => childStr p.1 p.2) ++
    (if pairs.isEmpty then "" else "\n") ++ "</" ++ root ++ ">"

/-- `MarshalXML` (main.go lines 66-86) under `xml.MarshalIndent(config, "", "  ")`
(line 152): root tag `Config`, one child per entry of `Keys` in order, the
value read from the `Properties` map (Go's zero value `""` when absent). -/
def encode (c : Config) : String :=
  render "Config" (c.Keys.map fun k => (k, (mapLookup c.Properties k).getD ""))

/-! ## Codec: tokenizer

Model of the Go `encoding/xml` token stream (`Decoder.Token` in strict
mode) on the prolog-free flat subset this program consumes: start tags
(attributes parsed and discarded, as `UnmarshalXML` ignores them), end
tags checked against the open-element stack, and character data with the
five named entities, numeric character references, and `\r\n`/`\r` → `\n`
normalization. Go's Unicode name tables are modelled by an ASCII name
alphabet; comments, processing instructions, directives and CDATA do not
occur in this program's inputs and are not modelled. All recursion is
fueled so that every function computes by kernel reduction; callers pass
fuel larger than the input length, which the fuel lemmas show sufficient. -/

/-- XML whitespace. -/
def isXmlSpace (c : Char) : Bool :=
  c = ' ' || c = '\t' || c = '\n' || c = '\r'

/-- Name start character (model of Go's `isNameByte`/first-rune check). -/
def isNameStart (c : Char) : Bool :=
  c.isAlpha || c = '_'

/-- Name character (model of Go's name alphabet, ASCII part). -/
def isNameChar (c : Char) : Bool :=
  c.isAlphanum || c = '_' || c = '-' || c = '.'

/-- A usable element name: nonempty, name-start head, name characters. -/
def validName (s : String) : Bool :=
  match s.data with
  | [] => false
  | c :: rest => isNameStart c && rest.all isNameChar

/-- Hexadecimal digit test (Go `unicode.Is(unicode.Hex_Digit, …)` subset). -/
def isHexDig (c : Char) : Bool :=
  c.isDigit || ('a' ≤ c && c ≤ 'f') || ('A' ≤ c && c ≤ 'F')

/-- Numeric value of a hexadecimal digit. -/
def hexVal (c : Char) : Nat :=
  c.toNat % 16 + (if c.isDigit then 0 else 9)

/-- A numeric character reference: valid code point inside the XML
character range, as Go checks before accepting `&#…;`. -/
def numericRef (n : Nat) : Option Char :=
  if h : n.isValidChar then
    if isValidXmlChar (Char.ofNatAux n h) then some (Char.ofNatAux n h) else none
  else none

/-- Decode one entity name (between `&` and `;`): the five named entities
plus decimal `#nnn` and hex `#xhh` character references, checked against
the XML character range as Go does. -/
def entityChar : List Char → Option Char
  | ['l', 't'] => some '<'
  | ['g', 't'] => some '>'
  | ['a', 'm', 'p'] => some '&'
  | ['a', 'p', 'o', 's'] => some '\''
  | ['q', 'u', 'o', 't'] => some '"'
  | '#' :: 'x' :: ds =>
    if ds ≠ [] && ds.all isHexDig then
      numericRef (ds.foldl (fun a c => a * 16 + hexVal c) 0)
    else none
  | '#' :: ds =>
    if ds ≠ [] && ds.all (·.isDigit) then
      numericRef (ds.foldl (fun a c => a * 10 + (c.toNat - '0'.toNat)) 0)
    else none
  | _ => none

/-- Character-data scanner: consume text up to the next `<` (or the end of
input), resolving entities and normalizing line endings. The second
argument is `none` in plain text, `some acc` while inside an entity
reference (accumulated name, reversed). Returns the scanned text and the
unconsumed rest. -/
def scanText : List Char → Option (List Char) → Except String (List Char × List Char)
  | [], none => .ok ([], [])
  | [], some _ => .error "invalid character entity"
  | c :: rest, some acc =>
    if c = ';' then
      match entityChar acc.reverse with
      | some ch => (scanText rest none).map fun p => (ch :: p.1, p.2)
      | none => .error "invalid character entity"
    else if c = '<' || c = '&' then .error "invalid character entity"
    else scanText rest (some (c :: acc))
  | '\r' :: '\n' :: rest, none => (scanText rest none).map fun p => ('\n' :: p.1, p.2)
  | '\r' :: rest, none => (scanText rest none).map fun p => ('\n' :: p.1, p.2)
  | c :: rest, none =>
    if c = '<' then .ok ([], c :: rest)
    else if c = '&' then scanText rest (some [])
    else (scanText rest none).map fun p => (c :: p.1, p.2)

/-- State of the in-tag scanner after the element name. -/
inductive TagState where
  /-- Between attributes (or right after the name): spaces, `>`, `/>`,
  or the start of an attribute name. -/
  | gap
  /-- Inside an attribute name (nonempty so far). -/
  | aname
  /-- After an attribute name: spaces then `=`. -/
  | aeq
  /-- After `=`: spaces then an opening quote. -/
  | aval
  /-- Inside a quoted attribute value (the quote character). -/
  | aquote (q : Char)
deriving DecidableEq, Repr

/-- Scan the remainder of a start tag after its name, discarding
attributes (which `UnmarshalXML` never reads). Returns whether the tag
was self-closing (`/>`) and the rest of the input after `>`. Mirrors the
strict-mode acceptance of Go's reader: attributes must be `name = "…"`
with the value quoted; entity references inside attribute values are not
re-checked since the values are discarded. -/
def scanTag : List Char → TagState → Except String (Bool × List Char)
  | [], _ => .error "unexpected EOF"
  | c :: rest, .gap =>
    if c = '>' then .ok (false, rest)
    else if c = '/' then
      match rest with
      | '>' :: rest2 => .ok (true, rest2)
      | _ => .error "expected />"
    else if isXmlSpace c then scanTag rest .gap
    else if isNameChar c then scanTag rest .aname
    else .error "expected attribute name in element"
  | c :: rest, .aname =>
    if isNameChar c then scanTag rest .aname
    else if c = '=' then scanTag rest .aval
    else if isXmlSpace c then scanTag rest .aeq
    else .error "expected = after attribute name"
  | c :: rest, .aeq =>
    if c = '=' then scanTag rest .aval
    else if isXmlSpace c then scanTag rest .aeq
    else .error "expected = after attribute name"
  | c :: rest, .aval =>
    if c = '"' || c = '\'' then scanTag rest (.aquote c)
    else if isXmlSpace c then scanTag rest .aval
    else .error "expected quoted attribute value"
  | c :: rest, .aquote q =>
    if c = q then scanTag rest .gap
    else if c = '<' then .error "unescaped < inside quoted string"
    else scanTag rest (.aquote q)

/-- One XML token of the stream `UnmarshalXML` consumes. -/
inductive Tok where
  /-- Start tag (attributes discarded). -/
  | start (name : String)
  /-- End tag. -/
  | stop (name : String)
  /-- Character data (entities resolved, line endings normalized). -/
  | text (s : String)
deriving DecidableEq, Repr

/-- The whole token stream of a document, with strict well-formedness:
end tags must match the stack of open elements, and input must not end
with elements still open. Fueled; `tokenize` passes sufficient fuel. -/
def tokenizeAux : Nat → List Char → List String → Except String (List Tok)
  | 0, _, _ => .error "out of fuel"
  | _ + 1, [], [] => .ok []
  | _ + 1, [], _ :: _ => .error "unexpected EOF"
  | fuel + 1, c :: rest, stack =>
    if c = '<' then
      match rest with
      | [] => .error "unexpected EOF"
      | c2 :: r1 =>
        if c2 = '/' then
          let n := r1.takeWhile isNameChar
          let r2 := (r1.dropWhile isNameChar).dropWhile isXmlSpace
          if n.isEmpty then .error "expected element name after </" else
          match r2 with
          | '>' :: r3 =>
            match stack with
            | top :: stack2 =>
              if top = (⟨n⟩ : String) then
                (tokenizeAux fuel r3 stack2).map (Tok.stop ⟨n⟩ :: ·)
              else .error "unexpected end element"
            | [] => .error "unexpected end element"
          | _ => .error "invalid characters between </ and >"
        else if isNameStart c2 then
          let n := (c2 :: r1).takeWhile isNameChar
          let r2 := (c2 :: r1).dropWhile isNameChar
          match scanTag r2 .gap with
          | .error e => .error e
          | .ok (selfClosing, r3) =>
            if selfClosing then
              (tokenizeAux fuel r3 stack).map
                (fun ts => Tok.start ⟨n⟩ :: Tok.stop ⟨n⟩ :: ts)
            else
              (tokenizeAux fuel r3 ((⟨n⟩ : String) :: stack)).map (Tok.start ⟨n⟩ :: ·)
        else .error "expected element name after <"
    else
      match scanText (c :: rest) none with
      | .error e => .error e
      | .ok (txt, r) => (tokenizeAux fuel r stack).map (Tok.text ⟨txt⟩ :: ·)

/-- Token stream of a string (fuel = input length + 1 always suffices:
every emitted token consumes at least one character). -/
def tokenize (s : String) : Except String (List Tok) :=
  tokenizeAux (s.data.length + 1) s.data []

/-! ## Codec: decoder (`UnmarshalXML` via `xml.Unmarshal`) -/

/-- Skip tokens to just past the end of the currently open element
(Go `Decoder.Skip`, applied to child elements nested inside a value). -/
def skipToks : List Tok → Nat → List Tok
  | [], _ => []
  | .stop _ :: r, 0 => r
  | .stop _ :: r, d + 1 => skipToks r d
  | .start _ :: r, d => skipToks r (d + 1)
  | .text _ :: r, d => skipToks r d

/-- `d.DecodeElement(&content, &t)` into a string: concatenate the
character data directly inside the element, skipping nested child
elements whole, until the element's end tag. Returns the content and the
tokens after the end tag. Fueled; token count + 1 suffices. -/
def decodeElem : Nat → List Tok → String × List Tok
  | 0, toks => ("", toks)
  | _ + 1, [] => ("", [])
  | _ + 1, .stop _ :: r => ("", r)
  | fuel + 1, .text s :: r =>
    let p := decodeElem fuel r
    (s ++ p.1, p.2)
  | fuel + 1, .start _ :: r => decodeElem fuel (skipToks r 0)

/-- The token loop of `UnmarshalXML` (main.go lines 40-60): for every
start element, decode its text content and store it — `Properties[name] =
content` and `Keys = append(Keys, name)`, unconditionally. All other
tokens are ignored. Fueled; token count + 1 suffices. -/
def unmarshalLoop : Nat → List Tok → Config → Config
  | 0, _, cfg => cfg
  | _ + 1, [], cfg => cfg
  | fuel + 1, .start n :: r, cfg =>
    let p := decodeElem (r.length + 1) r
    unmarshalLoop fuel p.2 ⟨mapInsert cfg.Properties n p.1, cfg.Keys ++ [n]⟩
  | fuel + 1, .stop _ :: r, cfg => unmarshalLoop fuel r cfg
  | fuel + 1, .text _ :: r, cfg => unmarshalLoop fuel r cfg

/-- Is a token character data? -/
def Tok.isText : Tok → Bool
  | .text _ => true
  | _ => false

/-- `xml.Unmarshal(file, &cfg)` (main.go line 100): tokenize, skip
leading character data, require a root start element (whose name is never
examined), then run the `UnmarshalXML` token loop starting from the empty
document. -/
def decode (s : String) : Except String Config :=
  match tokenize s with
  | .error e => .error e
  | .ok toks =>
    match toks.dropWhile Tok.isText with
    | [] => .error "EOF"
    | .start _ :: rest => .ok (unmarshalLoop (rest.length + 1) rest ⟨[], []⟩)
    | .stop _ :: _ => .error "unexpected end element"
    | .text _ :: _ => .error "EOF"

/-! ## Pipeline (`run`) -/

/-- Error kinds surfaced by `run`. -/
inductive RunError where
  /-- `os.Stat` reported the file missing (`file does not exist`). -/
  | missingFile
  /-- `xml.Unmarshal` failed (`error unmarshalling XML`). -/
  | parseError (msg : String)
deriving DecidableEq, Repr

/-- `run` (main.go lines 186-215, the current variant): the file system is
the single cell `fs` (contents of the configured path). Missing file is
an error unless `ignoreMissingConfig` is set; otherwise decode, apply the
environment overrides, and write the re-encoded document back —
unconditionally, the returned change map is discarded. The result pairs
the run's outcome with the file contents afterwards. -/
def run (fs : Option String) (ignoreMissingConfig : Bool) (pfx : String)
    (environ : List String) : Except RunError Unit × Option String :=
  match fs with
  | none =>
    if ignoreMissingConfig then (.ok (), none) else (.error .missingFile, none)
  | some content =>
    match decode content with
    | .error e => (.error (.parseError e), some content)
    | .ok cfg =>
      let r := updateConfigWithEnv environ cfg pfx
      (.ok (), some (encode r.1))

/-- `run` of the legacy snapshot (main.go lines 386-416): same pipeline,
no ignore-missing flag, and the file is rewritten only when the change
map is nonempty. -/
def runLegacy (fs : Option String) (pfx : String) (environ : List String) :
    Except RunError Unit × Option String :=
  match fs with
  | none => (.error .missingFile, none)
  | some content =>
    match decode content with
    | .error e => (.error (.parseError e), some content)
    | .ok cfg =>
      let r := updateConfigWithEnv environ cfg pfx
      if r.2.isEmpty then (.ok (), some content)
      else (.ok (), some (encode r.1))

/-! ## Association-list lemmas -/

theorem mapLookup_insert (m : List (String × String)) (k v k' : String) :
    mapLookup (mapInsert m k v) k' = if k = k' then some v else mapLookup m k' := by
  induction m with
  | nil => simp only [mapInsert, mapLookup]
  | cons p t ih =>
    obtain ⟨a, b⟩ := p
    simp only [mapInsert]
    by_cases hak : a = k
    · subst hak
      simp only [if_pos rfl, mapLookup]
      by_cases h : a = k' <;> simp [h]
    · simp only [if_neg hak, mapLookup]
      by_cases h : a = k'
      · subst h
        have hk : ¬(k = a) := fun hh => hak hh.symm
        simp [hk]
      · simp [h, ih]

theorem mapLookup_isSome_iff (m : List (String × String)) (k : String) :
    (mapLookup m k).isSome ↔ k ∈ m.map Prod.fst := by
  induction m with
  | nil => simp [mapLookup]
  | cons p t ih =>
    obtain ⟨a, b⟩ := p
    by_cases h : a = k
    · subst h; simp [mapLookup]
    · simp only [mapLookup, if_neg h, List.map_cons, List.mem_cons, ih]
      constructor
      · exact fun hm => Or.inr hm
      · rintro (rfl | hm)
        · exact absurd rfl h
        · exact hm

theorem mapLookup_eq_none_iff (m : List (String × String)) (k : String) :
    mapLookup m k = none ↔ k ∉ m.map Prod.fst := by
  rw [← mapLookup_isSome_iff, Option.isSome_iff_ne_none]
  tauto

theorem mapInsert_map_fst (m : List (String × String)) (k v : String) :
    (mapInsert m k v).map Prod.fst =
      if (mapLookup m k).isSome then m.map Prod.fst else m.map Prod.fst ++ [k] := by
  induction m with
  | nil => simp [mapInsert, mapLookup]
  | cons p t ih =>
    obtain ⟨a, b⟩ := p
    by_cases h : a = k
    · subst h; simp [mapInsert, mapLookup]
    · by_cases hs : (mapLookup t k).isSome <;> simp [mapInsert, mapLookup, h, ih, hs]

theorem mapInsert_map_fst_of_mem (m : List (String × String)) (k v : String)
    (h : (mapLookup m k).isSome) :
    (mapInsert m k v).map Prod.fst = m.map Prod.fst := by
  simp [mapInsert_map_fst, h]

/-! ## Document well-formedness through the pipeline (C2) -/

/-- The data-model invariant that actually holds of every document the
program builds: `Keys` and the key set of `Properties` agree as sets, and
the association list carries each key once. (`Keys` itself may repeat a
name — see the C2 counterexample.) -/
def ConfigWF (d : Config) : Prop :=
  d.Keys.toFinset = (d.Properties.map Prod.fst).toFinset ∧
    (d.Properties.map Prod.fst).Nodup

theorem configWF_set (d : Config) (hwf : ConfigWF d) (n txt : String) :
    ConfigWF ⟨mapInsert d.Properties n txt, d.Keys ++ [n]⟩ := by
  obtain ⟨hset, hnd⟩ := hwf
  by_cases h : (mapLookup d.Properties n).isSome
  · refine ⟨?_, ?_⟩
    · rw [mapInsert_map_fst_of_mem _ _ _ h, List.toFinset_append, hset]
      have hmem : n ∈ (d.Properties.map Prod.fst).toFinset :=
        List.mem_toFinset.2 ((mapLookup_isSome_iff _ _).1 h)
      simp [Finset.union_eq_left, Finset.singleton_subset_iff, hmem]
    · rwa [mapInsert_map_fst_of_mem _ _ _ h]
  · have hmem : n ∉ d.Properties.map Prod.fst := by
      rw [← mapLookup_isSome_iff]; exact h
    refine ⟨?_, ?_⟩
    · rw [mapInsert_map_fst, if_neg h, List.toFinset_append, List.toFinset_append, hset]
    · rw [mapInsert_map_fst, if_neg h]
      simp [List.nodup_append, hnd, hmem]

theorem unmarshalLoop_wf (fuel : Nat) (toks : List Tok) (cfg : Config)
    (hwf : ConfigWF cfg) : ConfigWF (unmarshalLoop fuel toks cfg) := by
  induction fuel generalizing toks cfg with
  | zero => simpa [unmarshalLoop]
  | succ f ih =>
    match toks with
    | [] => simpa [unmarshalLoop]
    | .start n :: r => exact ih _ _ (configWF_set cfg hwf n _)
    | .stop n :: r => exact ih _ _ hwf
    | .text s :: r => exact ih _ _ hwf

/-- Every successfully decoded document satisfies the invariant. -/
theorem decode_wf (s : String) (d : Config) (h : decode s = .ok d) : ConfigWF d := by
  unfold decode at h
  split at h
  · exact absurd h (by simp)
  · split at h
    · exact absurd h (by simp)
    · simp only [Except.ok.injEq] at h
      rw [← h]
      exact unmarshalLoop_wf _ _ _ ⟨by simp, by simp⟩
    · exact absurd h (by simp)
    · exact absurd h (by simp)

/-- The override engine never touches `Keys` and never changes the key
list of `Properties` (it only overwrites values of existing keys). -/
theorem updateAux_preserves (p : String) (environ : List String) (cfg : Config)
    (changed : List (String × String)) :
    (updateAux p environ cfg changed).1.Keys = cfg.Keys ∧
      (updateAux p environ cfg changed).1.Properties.map Prod.fst =
        cfg.Properties.map Prod.fst := by
  induction environ generalizing cfg changed with
  | nil => exact ⟨rfl, rfl⟩
  | cons envVar rest ih =>
    unfold updateAux
    split
    · split
      · exact ih cfg changed
      · split
        · exact ih cfg changed
        · split
          · rename_i currentValue h4
            split
            · refine (ih _ _).imp (fun h => h) (fun h => ?_)
              rw [h]
              exact mapInsert_map_fst_of_mem _ _ _ (by simp [h4])
            · exact ih cfg changed
          · exact ih cfg changed
    · exact ih cfg changed

theorem updateConfigWithEnv_preserves (environ : List String) (cfg : Config)
    (pfx : String) :
    (updateConfigWithEnv environ cfg pfx).1.Keys = cfg.Keys ∧
      (updateConfigWithEnv environ cfg pfx).1.Properties.map Prod.fst =
        cfg.Properties.map Prod.fst :=
  updateAux_preserves _ environ cfg []

/-- A sequence of Override Engine applications (each with its own
environment and prefix), documents threaded through. -/
def applyUpdates (updates : List (List String × String)) (d : Config) : Config :=
  updates.foldl (fun c u => (updateConfigWithEnv u.1 c u.2).1) d

theorem applyUpdates_preserves (updates : List (List String × String)) (d : Config) :
    (applyUpdates updates d).Keys = d.Keys ∧
      (applyUpdates updates d).Properties.map Prod.fst = d.Properties.map Prod.fst := by
  induction updates generalizing d with
  | nil => exact ⟨rfl, rfl⟩
  | cons u rest ih =>
    have h1 := updateConfigWithEnv_preserves u.1 d u.2
    have h2 := ih ((updateConfigWithEnv u.1 d u.2).1)
    exact ⟨h2.1.trans h1.1, h2.2.trans h1.2⟩

/-! ## Code/spec agreement for the override engine (C3) -/

theorem lastAssigned_append_single (l : List (String × String)) (a b k : String) :
    lastAssigned (l ++ [(a, b)]) k = if a = k then some b else lastAssigned l k := by
  simp [lastAssigned, List.foldl_append]

/-- The loop of the Go code computes exactly the document and mapping of
the spec's six-step algorithm, from any starting state. -/
theorem updateAux_eq_specOverride (p : String) (env : List String) (cfg : Config)
    (changed applied : List (String × String)) :
    updateAux p env cfg changed =
      ((specOverride p env cfg changed applied).1,
        (specOverride p env cfg changed applied).2.1) := by
  induction env generalizing cfg changed applied with
  | nil => rfl
  | cons raw rest ih =>
    unfold updateAux specOverride
    by_cases h1 : strHasPrefix raw p
    · simp only [h1, if_true]
      rcases h2 : splitN2 (raw.drop p.length) with _ | ⟨idp, kv⟩ <;> dsimp only
      · exact ih cfg changed applied
      · rcases h3 : splitN2 kv with _ | ⟨k0, v0⟩ <;> dsimp only
        · exact ih cfg changed applied
        · rcases h4 : mapLookup cfg.Properties k0 with _ | cur <;> dsimp only
          · exact ih cfg changed applied
          · by_cases h5 : v0 = cur
            · simp only [h5, ne_eq, not_true_eq_false, if_false, if_pos rfl]
              exact ih cfg changed applied
            · simp only [ne_eq, h5, not_false_eq_true, if_true, if_neg h5]
              exact ih _ _ _
    · simp only [h1, if_false]
      exact ih cfg changed applied

/-- Along the spec algorithm, the result mapping coincides pointwise with
the last applied assignment. -/
theorem specOverride_mapping_eq_lastAssigned (p : String) (env : List String)
    (cfg : Config) (mapping applied : List (String × String))
    (hinv : ∀ k, mapLookup mapping k = lastAssigned applied k) :
    ∀ k, mapLookup (specOverride p env cfg mapping applied).2.1 k =
      lastAssigned (specOverride p env cfg mapping applied).2.2 k := by
  induction env generalizing cfg mapping applied with
  | nil => exact hinv
  | cons raw rest ih =>
    unfold specOverride
    by_cases h1 : strHasPrefix raw p
    · simp only [h1, if_true]
      rcases h2 : splitN2 (raw.drop p.length) with _ | ⟨idp, kv⟩ <;> dsimp only
      · exact ih cfg mapping applied hinv
      · rcases h3 : splitN2 kv with _ | ⟨k0, v0⟩ <;> dsimp only
        · exact ih cfg mapping applied hinv
        · rcases h4 : mapLookup cfg.Properties k0 with _ | cur <;> dsimp only
          · exact ih cfg mapping applied hinv
          · by_cases h5 : v0 = cur
            · simp only [h5, if_pos rfl]
              exact ih cfg mapping applied hinv
            · simp only [if_neg h5]
              refine ih _ _ _ (fun k => ?_)
              rw [mapLookup_insert, lastAssigned_append_single]
              by_cases hk : k0 = k
              · simp [hk]
              · simp [hk, hinv k]
    · simp only [h1, if_false]
      exact ih cfg mapping applied hinv

/-- Lookup in a base map overridden by a change mapping: the changed value
when present, the base value otherwise. -/
def overrideWith (base override : List (String × String)) (k : String) : Option String :=
  match mapLookup override k with
  | some v => some v
  | none => mapLookup base k

/-- Along the spec algorithm, the document's entries stay equal to the
starting entries overridden by the accumulated mapping. -/
theorem specOverride_lookup_override (p : String) (env : List String)
    (base : List (String × String)) (cfg : Config) (mapping applied : List (String × String))
    (hinv : ∀ k, mapLookup cfg.Properties k = overrideWith base mapping k) :
    ∀ k, mapLookup (specOverride p env cfg mapping applied).1.Properties k =
      overrideWith base (specOverride p env cfg mapping applied).2.1 k := by
  induction env generalizing cfg mapping applied with
  | nil => exact hinv
  | cons raw rest ih =>
    unfold specOverride
    by_cases h1 : strHasPrefix raw p
    · simp only [h1, if_true]
      rcases h2 : splitN2 (raw.drop p.length) with _ | ⟨idp, kv⟩ <;> dsimp only
      · exact ih cfg mapping applied hinv
      · rcases h3 : splitN2 kv with _ | ⟨k0, v0⟩ <;> dsimp only
        · exact ih cfg mapping applied hinv
        · rcases h4 : mapLookup cfg.Properties k0 with _ | cur <;> dsimp only
          · exact ih cfg mapping applied hinv
          · by_cases h5 : v0 = cur
            · simp only [h5, if_pos rfl]
              exact ih cfg mapping applied hinv
            · simp only [if_neg h5]
              refine ih _ _ _ (fun k => ?_)
              show mapLookup (mapInsert cfg.Properties k0 v0) k = _
              rw [mapLookup_insert]
              unfold overrideWith
              rw [mapLookup_insert]
              by_cases hk : k0 = k
              · simp [hk]
              · simp only [if_neg hk]
                exact hinv k
    · simp only [h1, if_false]
      exact ih cfg mapping applied hinv

/-! ## Processing order of overrides for one key (C9) -/

/-- The parsing stage of one loop iteration (prefix test and the two
splits), as a partial function returning the targeted key and value. -/
def parseVar (envPfx raw : String) : Option (String × String) :=
  if strHasPrefix raw envPfx then
    match splitN2 (raw.drop envPfx.length) with
    | none => none
    | some (_identifier, kv) => splitN2 kv
  else none

/-- The proposed values, in environment order, of the variables that match
the prefix, parse, and target key `K`. -/
def valuesFor (envPfx K : String) (environ : List String) : List String :=
  ((environ.filterMap (parseVar envPfx)).filter (fun p => p.1 = K)).map Prod.snd

/-- The engine's effect, restricted to one existing key: thread the
current value and the recorded change through the proposed values. -/
def procK : String → Option String → List String → String × Option String
  | c, chv, [] => (c, chv)
  | c, chv, v :: vs => if v = c then procK c chv vs else procK v (some v) vs

/-- The full loop, observed at one existing key `K`, behaves as `procK`
over the values proposed for `K`. -/
theorem updateAux_procK (p : String) (environ : List String) (cfg : Config)
    (changed : List (String × String)) (K c : String)
    (hcur : mapLookup cfg.Properties K = some c) :
    mapLookup (updateAux p environ cfg changed).1.Properties K =
      some (procK c (mapLookup changed K) (valuesFor p K environ)).1 ∧
    mapLookup (updateAux p environ cfg changed).2 K =
      (procK c (mapLookup changed K) (valuesFor p K environ)).2 := by
  induction environ generalizing cfg changed c with
  | nil => exact ⟨hcur, rfl⟩
  | cons raw rest ih =>
    unfold updateAux
    by_cases h1 : strHasPrefix raw p
    · simp only [h1, if_true]
      rcases h2 : splitN2 (raw.drop p.length) with _ | ⟨idp, kv⟩ <;> dsimp only
      · have hval : valuesFor p K (raw :: rest) = valuesFor p K rest := by
          unfold valuesFor
          simp [List.filterMap_cons, parseVar, h1, h2]
        rw [hval]; exact ih cfg changed c hcur
      · rcases h3 : splitN2 kv with _ | ⟨k0, v0⟩ <;> dsimp only
        · have hval : valuesFor p K (raw :: rest) = valuesFor p K rest := by
            unfold valuesFor
            simp [List.filterMap_cons, parseVar, h1, h2, h3]
          rw [hval]; exact ih cfg changed c hcur
        · have hp : parseVar p raw = some (k0, v0) := by
            simp [parseVar, h1, h2, h3]
          by_cases hk : k0 = K
          · subst hk
            have hval : valuesFor p k0 (raw :: rest) = v0 :: valuesFor p k0 rest := by
              unfold valuesFor
              simp [List.filterMap_cons, hp]
            rw [hval, hcur]
            dsimp only
            by_cases h5 : v0 = c
            · have hstep : procK c (mapLookup changed k0) (v0 :: valuesFor p k0 rest) =
                  procK c (mapLookup changed k0) (valuesFor p k0 rest) := by
                rw [procK, if_pos h5]
              rw [hstep]
              simp only [h5, ne_eq, not_true_eq_false, if_false]
              exact ih cfg changed c hcur
            · have hstep : procK c (mapLookup changed k0) (v0 :: valuesFor p k0 rest) =
                  procK v0 (some v0) (valuesFor p k0 rest) := by
                rw [procK, if_neg h5]
              simp only [ne_eq, h5, not_false_eq_true, if_true, hstep]
              have hcur2 : mapLookup (mapInsert cfg.Properties k0 v0) k0 = some v0 := by
                rw [mapLookup_insert]; simp
              have hih := ih ⟨mapInsert cfg.Properties k0 v0, cfg.Keys⟩
                (mapInsert changed k0 v0) v0 hcur2
              rwa [show mapLookup (mapInsert changed k0 v0) k0 = some v0 by
                rw [mapLookup_insert]; simp] at hih
          · have hval : valuesFor p K (raw :: rest) = valuesFor p K rest := by
              unfold valuesFor
              simp [List.filterMap_cons, hp, hk]
            rw [hval]
            rcases h4 : mapLookup cfg.Properties k0 with _ | cur <;> dsimp only
            · exact ih cfg changed c hcur
            · by_cases h5 : v0 = cur
              · simp only [h5, ne_eq, not_true_eq_false, if_false]
                exact ih cfg changed c hcur
              · simp only [ne_eq, h5, not_false_eq_true, if_true]
                have hcur2 : mapLookup (mapInsert cfg.Properties k0 v0) K = some c := by
                  rw [mapLookup_insert, if_neg hk]; exact hcur
                have hih := ih ⟨mapInsert cfg.Properties k0 v0, cfg.Keys⟩
                  (mapInsert changed k0 v0) c hcur2
                rwa [show mapLookup (mapInsert changed k0 v0) K = mapLookup changed K by
                  rw [mapLookup_insert, if_neg hk]] at hih
    · simp only [h1, if_false]
      have hval : valuesFor p K (raw :: rest) = valuesFor p K rest := by
        unfold valuesFor
        simp [List.filterMap_cons, parseVar, h1]
      rw [hval]; exact ih cfg changed c hcur

theorem getLast?_of_all_eq (l : List String) (x : String) (hne : l ≠ [])
    (hall : l.all (· = x) = true) : l.getLast? = some x := by
  induction l with
  | nil => exact absurd rfl hne
  | cons a t ih =>
    simp only [List.all_cons, Bool.and_eq_true, decide_eq_true_eq] at hall
    obtain ⟨ha, ht⟩ := hall
    cases t with
    | nil => simp [ha]
    | cons b t2 =>
      rw [List.getLast?_cons_cons]
      exact ih (by simp) (by simpa using ht)

/-- `procK` ends at the last proposed value; the recorded change is that
value too, unless every proposed value equalled the starting one (then
nothing was recorded). -/
theorem procK_getLast (vs : List String) : ∀ (c : String) (chv : Option String),
    vs ≠ [] →
    some (procK c chv vs).1 = vs.getLast? ∧
    ((procK c chv vs).2 = vs.getLast? ∨
      (vs.all (· = c) = true ∧ (procK c chv vs).2 = chv)) := by
  induction vs with
  | nil => intro c chv hne; exact absurd rfl hne
  | cons v vs2 ih =>
    intro c chv _
    cases vs2 with
    | nil =>
      by_cases h : v = c
      · subst h
        refine ⟨by simp [procK], Or.inr ⟨by simp, by simp [procK]⟩⟩
      · exact ⟨by simp [procK, h], Or.inl (by simp [procK, h])⟩
    | cons w t =>
      rw [List.getLast?_cons_cons]
      by_cases h : v = c
      · subst h
        have hstep : procK v chv (v :: w :: t) = procK v chv (w :: t) := by
          rw [procK, if_pos rfl]
        rw [hstep]
        rcases ih v chv (by simp) with ⟨h1, h2 | ⟨ha, h2⟩⟩
        · exact ⟨h1, Or.inl h2⟩
        · exact ⟨h1, Or.inr ⟨by simp [List.all_cons, ha], h2⟩⟩
      · have hstep : procK c chv (v :: w :: t) = procK v (some v) (w :: t) := by
          rw [procK, if_neg h]
        rw [hstep]
        rcases ih v (some v) (by simp) with ⟨h1, h2 | ⟨ha, h2⟩⟩
        · exact ⟨h1, Or.inl h2⟩
        · refine ⟨h1, Or.inl ?_⟩
          rw [h2, getLast?_of_all_eq (w :: t) v (by simp) ha]

/-! ## Round-trip of the codec (C4, C10)

The encoder's output is decoded back symbolically: entity unescaping
inverts `escChar`, name scanning recovers each tag name, and the
`UnmarshalXML` loop rebuilds the document from the token stream. -/

/-- Valid text value: every character inside the XML character range (so
`EscapeText` does not substitute U+FFFD). -/
def validText (s : String) : Bool :=
  s.data.all isValidXmlChar

/-- `escapeText` at the character-list level. -/
def escList (cs : List Char) : List Char :=
  (cs.map escChar).flatten

/-- The document built by feeding `pairs` through `UnmarshalXML`'s store
step in order. -/
def mkDoc (pairs : List (String × String)) : Config :=
  pairs.foldl (fun c p => ⟨mapInsert c.Properties p.1 p.2, c.Keys ++ [p.1]⟩) ⟨[], []⟩

theorem escList_cons (c : Char) (cs : List Char) :
    escList (c :: cs) = escChar c ++ escList cs := by
  simp [escList]

theorem escList_nil : escList [] = [] := rfl

theorem data_escapeText (s : String) : (escapeText s).data = escList s.data := rfl

theorem takeWhile_append_not_head (p : Char → Bool) (xs : List Char) (y : Char)
    (ys : List Char) (hxs : ∀ x ∈ xs, p x = true) (hy : p y = false) :
    (xs ++ y :: ys).takeWhile p = xs ∧ (xs ++ y :: ys).dropWhile p = y :: ys := by
  induction xs with
  | nil => simp [List.takeWhile, List.dropWhile, hy]
  | cons a t ih =>
    have ha : p a = true := hxs a (by simp)
    have ht := ih (fun x hx => hxs x (by simp [hx]))
    simp [List.takeWhile_cons, List.dropWhile_cons, ha, ht.1, ht.2]

theorem isNameStart_isNameChar (c : Char) (h : isNameStart c = true) :
    isNameChar c = true := by
  simp only [isNameStart, Bool.or_eq_true] at h
  rcases h with h | h <;> simp [isNameChar, Char.isAlphanum, h]

theorem isNameStart_ne_slash (c : Char) (h : isNameStart c = true) : c ≠ '/' := by
  intro hc
  subst hc
  simp [isNameStart] at h

theorem isNameStart_ne_lt (c : Char) (h : isNameStart c = true) : c ≠ '<' := by
  intro hc
  subst hc
  simp [isNameStart] at h

theorem entityChar_apos : entityChar ['#', '3', '9'] = some '\'' := by decide

theorem entityChar_quot : entityChar ['#', '3', '4'] = some '"' := by decide

theorem entityChar_tab : entityChar ['#', 'x', '9'] = some '\t' := by decide

theorem entityChar_lf : entityChar ['#', 'x', 'A'] = some '\n' := by decide

theorem entityChar_cr : entityChar ['#', 'x', 'D'] = some '\r' := by decide

/-- Unescape inverts escape: scanning the escaped form of a valid text up
to a following `<` recovers the text. -/
theorem scanText_escList (v : List Char) (rest : List Char)
    (hv : v.all isValidXmlChar = true) :
    scanText (escList v ++ '<' :: rest) none = .ok (v, '<' :: rest) := by
  induction v with
  | nil => simp [escList, scanText]
  | cons c cs ih =>
    simp only [List.all_cons, Bool.and_eq_true] at hv
    obtain ⟨hc, hcs⟩ := hv
    have ihcs := ih hcs
    rw [escList_cons, List.append_assoc]
    by_cases h1 : c = '&'
    · subst h1
      simp [escChar, scanText, entityChar, ihcs, Except.map]
    · by_cases h2 : c = '<'
      · subst h2
        simp [escChar, scanText, entityChar, ihcs, Except.map]
      · by_cases h3 : c = '>'
        · subst h3
          simp [escChar, scanText, entityChar, ihcs, Except.map]
        · by_cases h4 : c = '\''
          · subst h4
            simp [escChar, scanText, entityChar_apos, ihcs, Except.map]
          · by_cases h5 : c = '"'
            · subst h5
              simp [escChar, scanText, entityChar_quot, ihcs, Except.map]
            · by_cases h6 : c = '\t'
              · subst h6
                simp [escChar, scanText, entityChar_tab, ihcs, Except.map]
              · by_cases h7 : c = '\n'
                · subst h7
                  simp [escChar, scanText, entityChar_lf, ihcs, Except.map]
                · by_cases h8 : c = '\r'
                  · subst h8
                    simp [escChar, scanText, entityChar_cr, ihcs, Except.map]
                  · have hesc : escChar c = [c] := by
                      simp [escChar, h1, h2, h3, h4, h5, h6, h7, h8, hc]
                    rw [hesc]
                    simp [scanText, h1, h2, h8, ihcs, Except.map]

theorem validName_parts (s : String) (h : validName s = true) :
    ∃ c0 cs0, s.data = c0 :: cs0 ∧ isNameStart c0 = true ∧
      ∀ x ∈ s.data, isNameChar x = true := by
  unfold validName at h
  rcases hd : s.data with - | ⟨c0, cs0⟩
  · rw [hd] at h
    exact absurd h (by simp)
  · rw [hd] at h
    simp only [Bool.and_eq_true, List.all_eq_true] at h
    refine ⟨c0, cs0, rfl, h.1, fun x hx => ?_⟩
    rcases List.mem_cons.1 hx with rfl | hx2
    · exact isNameStart_isNameChar x h.1
    · exact h.2 x hx2

/-- Every escaped character renders as a nonempty string not starting
with `<`. -/
theorem escChar_cons_ne_lt (c : Char) :
    ∃ e0 etail, escChar c = e0 :: etail ∧ e0 ≠ '<' := by
  unfold escChar
  split_ifs with h1 h2 h3 h4 h5 h6 h7 h8 h9
  · exact ⟨_, _, rfl, by decide⟩
  · exact ⟨_, _, rfl, by decide⟩
  · exact ⟨_, _, rfl, by decide⟩
  · exact ⟨_, _, rfl, by decide⟩
  · exact ⟨_, _, rfl, by decide⟩
  · exact ⟨_, _, rfl, by decide⟩
  · exact ⟨_, _, rfl, by decide⟩
  · exact ⟨_, _, rfl, by decide⟩
  · exact ⟨_, _, rfl, h2⟩
  · exact ⟨_, _, rfl, by decide⟩

theorem scanTag_gt (rest : List Char) : scanTag ('>' :: rest) .gap = .ok (false, rest) := by
  simp [scanTag]

theorem scanText_ws_indent (rest : List Char) :
    scanText ('\n' :: ' ' :: ' ' :: '<' :: rest) none = .ok (['\n', ' ', ' '], '<' :: rest) := by
  simp [scanText, Except.map]

theorem scanText_nl (rest : List Char) :
    scanText ('\n' :: '<' :: rest) none = .ok (['\n'], '<' :: rest) := by
  simp [scanText, Except.map]

/-- Tokenizer step: a start tag `<name>`. -/
theorem tokenizeAux_startTag (fuel : Nat) (n rest : List Char) (stack : List String)
    (c0 : Char) (cs0 : List Char) (hn : n = c0 :: cs0)
    (hstart : isNameStart c0 = true) (hchars : ∀ x ∈ n, isNameChar x = true) :
    tokenizeAux (fuel + 1) ('<' :: n ++ '>' :: rest) stack =
      (tokenizeAux fuel rest ((⟨n⟩ : String) :: stack)).map (Tok.start ⟨n⟩ :: ·) := by
  subst hn
  have hslash := isNameStart_ne_slash c0 hstart
  have htw := takeWhile_append_not_head isNameChar (c0 :: cs0) '>' rest hchars (by decide)
  simp only [List.cons_append] at htw
  simp [tokenizeAux, hslash, hstart, htw.1, htw.2, scanTag_gt, Except.map]

/-- Tokenizer step: an end tag `</name>` matching the top of the stack. -/
theorem tokenizeAux_endTag (fuel : Nat) (n rest : List Char) (stack : List String)
    (c0 : Char) (cs0 : List Char) (hn : n = c0 :: cs0)
    (hchars : ∀ x ∈ n, isNameChar x = true) :
    tokenizeAux (fuel + 1) ('<' :: '/' :: n ++ '>' :: rest) ((⟨n⟩ : String) :: stack) =
      (tokenizeAux fuel rest stack).map (Tok.stop ⟨n⟩ :: ·) := by
  subst hn
  have htw := takeWhile_append_not_head isNameChar (c0 :: cs0) '>' rest hchars (by decide)
  simp only [List.cons_append] at htw
  have hsp : List.dropWhile isXmlSpace ('>' :: rest) = '>' :: rest := by
    simp [List.dropWhile_cons, isXmlSpace]
  simp [tokenizeAux, htw.1, htw.2, hsp, Except.map]

/-- Tokenizer step: character data (anything not starting with `<`). -/
theorem tokenizeAux_text (fuel : Nat) (cs : List Char) (stack : List String)
    (c : Char) (rest : List Char) (hcs : cs = c :: rest) (hc : c ≠ '<')
    (txt r : List Char) (hscan : scanText cs none = .ok (txt, r)) :
    tokenizeAux (fuel + 1) cs stack =
      (tokenizeAux fuel r stack).map (Tok.text ⟨txt⟩ :: ·) := by
  subst hcs
  simp [tokenizeAux, hc, hscan, Except.map]

/-- The rendered characters after the root start tag when at least one
child is present (each child on its own indented line, then the newline
and the closing root tag). -/
def renderTail : List (String × String) → String → List Char
  | [], root => '\n' :: '<' :: '/' :: (root.data ++ ['>'])
  | (k, v) :: rest, root =>
    '\n' :: ' ' :: ' ' :: '<' ::
      (k.data ++ '>' :: (escList v.data ++ '<' :: '/' :: (k.data ++ '>' :: renderTail rest root)))

/-- The token stream of the rendered children. -/
def childToks : List (String × String) → List Tok
  | [] => []
  | (k, v) :: rest =>
    Tok.text "\n  " :: Tok.start k ::
      ((if v.data = [] then [] else [Tok.text v]) ++ (Tok.stop k :: childToks rest))

theorem childStr_data (k v : String) :
    (childStr k v).data =
      '\n' :: ' ' :: ' ' :: '<' ::
        (k.data ++ '>' :: (escList v.data ++ '<' :: '/' :: (k.data ++ ['>']))) := by
  have h1 : ("\n  <" : String).data = ['\n', ' ', ' ', '<'] := by decide
  have h2 : (">" : String).data = ['>'] := by decide
  have h3 : ("</" : String).data = ['<', '/'] := by decide
  simp [childStr, String.data_append, data_escapeText, h1, h2, h3]

theorem foldl_strAppend_data (l : List String) : ∀ acc : String,
    (l.foldl (fun r s => r ++ s) acc).data = acc.data ++ (l.map String.data).flatten := by
  induction l with
  | nil => intro acc; simp
  | cons s t ih =>
    intro acc
    simp [List.foldl_cons, ih, String.data_append, List.append_assoc]

theorem join_data (l : List String) : (String.join l).data = (l.map String.data).flatten := by
  have h := foldl_strAppend_data l ""
  simpa [String.join] using h

theorem childList_close_eq_renderTail (pairs : List (String × String)) (root : String) :
    ((pairs.map fun p => childStr p.1 p.2).map String.data).flatten ++
        ('\n' :: '<' :: '/' :: (root.data ++ ['>'])) = renderTail pairs root := by
  induction pairs with
  | nil => simp [renderTail]
  | cons p rest ih =>
    obtain ⟨k, v⟩ := p
    simp only [List.map_cons, List.flatten_cons, List.append_assoc, ih, childStr_data,
      renderTail]
    simp [List.append_assoc]

theorem render_data_nil (root : String) :
    (render root []).data = '<' :: (root.data ++ '>' :: ('<' :: '/' :: (root.data ++ ['>']))) := by
  have h1 : ("<" : String).data = ['<'] := by decide
  have h2 : (">" : String).data = ['>'] := by decide
  have h3 : ("</" : String).data = ['<', '/'] := by decide
  simp [render, String.data_append, String.join, h1, h2, h3]

theorem render_data_cons (root : String) (pairs : List (String × String))
    (hne : pairs ≠ []) :
    (render root pairs).data = '<' :: (root.data ++ '>' :: renderTail pairs root) := by
  have h1 : ("<" : String).data = ['<'] := by decide
  have h2 : (">" : String).data = ['>'] := by decide
  have h3 : ("</" : String).data = ['<', '/'] := by decide
  have h4 : ("\n" : String).data = ['\n'] := by decide
  have hie : pairs.isEmpty = false := by
    cases pairs with
    | nil => exact absurd rfl hne
    | cons a b => rfl
  rw [← childList_close_eq_renderTail pairs root]
  simp [render, String.data_append, join_data, hie, h1, h2, h3, h4, List.append_assoc]

theorem tokenizeAux_startTagS (fuel : Nat) (name : String) (rest : List Char)
    (stack : List String) (hname : validName name = true) :
    tokenizeAux (fuel + 1) ('<' :: (name.data ++ '>' :: rest)) stack =
      (tokenizeAux fuel rest (name :: stack)).map (Tok.start name :: ·) := by
  obtain ⟨c0, cs0, hd, hstart, hchars⟩ := validName_parts name hname
  have h := tokenizeAux_startTag fuel name.data rest stack c0 cs0 hd hstart hchars
  exact h

theorem tokenizeAux_endTagS (fuel : Nat) (name : String) (rest : List Char)
    (stack : List String) (hname : validName name = true) :
    tokenizeAux (fuel + 1) ('<' :: '/' :: (name.data ++ '>' :: rest)) (name :: stack) =
      (tokenizeAux fuel rest stack).map (Tok.stop name :: ·) := by
  obtain ⟨c0, cs0, hd, hstart, hchars⟩ := validName_parts name hname
  have h := tokenizeAux_endTag fuel name.data rest stack c0 cs0 hd hchars
  exact h

theorem renderTail_nil_length (root : String) :
    (renderTail [] root).length = root.data.length + 4 := by
  simp [renderTail]

theorem renderTail_cons_length (k v : String) (rest : List (String × String))
    (root : String) :
    (renderTail ((k, v) :: rest) root).length =
      2 * k.data.length + (escList v.data).length + (renderTail rest root).length + 8 := by
  simp [renderTail]
  omega

theorem validName_data_ne_nil (s : String) (h : validName s = true) : s.data ≠ [] := by
  obtain ⟨c0, cs0, hd, -, -⟩ := validName_parts s h
  simp [hd]

/-- Tokenizing the rendered children: each child contributes its
whitespace text, start tag, value text (when nonempty) and end tag; the
stream ends with the final newline and the root's end tag. -/
theorem tokenizeAux_renderTail (root : String) (hroot : validName root = true) :
    ∀ (pairs : List (String × String)),
    (∀ p ∈ pairs, validName p.1 = true ∧ validText p.2 = true) →
    ∀ fuel, (renderTail pairs root).length < fuel →
    tokenizeAux fuel (renderTail pairs root) [root] =
      .ok (childToks pairs ++ [Tok.text "\n", Tok.stop root]) := by
  intro pairs
  induction pairs with
  | nil =>
    intro _ fuel hfuel
    rw [renderTail_nil_length] at hfuel
    obtain ⟨f, rfl⟩ : ∃ f, fuel = f + 3 := ⟨fuel - 3, by omega⟩
    show tokenizeAux ((f + 2) + 1) (renderTail [] root) [root] = _
    unfold renderTail
    rw [tokenizeAux_text (f + 2) _ [root] '\n' ('<' :: '/' :: (root.data ++ ['>'])) rfl
      (by decide) ['\n'] ('<' :: '/' :: (root.data ++ ['>']))
      (scanText_nl ('/' :: (root.data ++ ['>'])))]
    rw [show f + 2 = (f + 1) + 1 from rfl]
    rw [show ('<' :: '/' :: (root.data ++ ['>'])) = '<' :: '/' :: (root.data ++ '>' :: []) by simp]
    rw [tokenizeAux_endTagS (f + 1) root [] [] hroot]
    rw [show f + 1 = f + 1 from rfl]
    simp [tokenizeAux, childToks, Except.map]
  | cons p rest ih =>
    intro hp fuel hfuel
    obtain ⟨k, v⟩ := p
    have hk : validName k = true := (hp (k, v) (by simp)).1
    have hv : validText v = true := (hp (k, v) (by simp)).2
    have ihrest := ih (fun q hq => hp q (by simp [hq]))
    rw [renderTail_cons_length] at hfuel
    have hkne := validName_data_ne_nil k hk
    by_cases hvnil : v.data = []
    · -- empty value: no text token between the tags
      obtain ⟨f, rfl⟩ : ∃ f, fuel = f + 3 := ⟨fuel - 3, by omega⟩
      show tokenizeAux ((f + 2) + 1) (renderTail ((k, v) :: rest) root) [root] = _
      unfold renderTail
      rw [tokenizeAux_text (f + 2) _ [root] '\n'
        (' ' :: ' ' :: '<' :: (k.data ++ '>' ::
          (escList v.data ++ '<' :: '/' :: (k.data ++ '>' :: renderTail rest root)))) rfl
        (by decide) ['\n', ' ', ' ']
        ('<' :: (k.data ++ '>' ::
          (escList v.data ++ '<' :: '/' :: (k.data ++ '>' :: renderTail rest root))))
        (scanText_ws_indent _)]
      rw [hvnil, escList_nil, List.nil_append]
      rw [show f + 2 = (f + 1) + 1 from rfl]
      rw [tokenizeAux_startTagS (f + 1) k
        ('<' :: '/' :: (k.data ++ '>' :: renderTail rest root)) [root] hk]
      rw [tokenizeAux_endTagS f k (renderTail rest root) [root] hk]
      rw [ihrest f (by omega)]
      simp [childToks, hvnil, Except.map]
    · -- nonempty value: a text token carries the unescaped value
      obtain ⟨f, rfl⟩ : ∃ f, fuel = f + 4 := ⟨fuel - 4, by omega⟩
      show tokenizeAux ((f + 3) + 1) (renderTail ((k, v) :: rest) root) [root] = _
      unfold renderTail
      rw [tokenizeAux_text (f + 3) _ [root] '\n'
        (' ' :: ' ' :: '<' :: (k.data ++ '>' ::
          (escList v.data ++ '<' :: '/' :: (k.data ++ '>' :: renderTail rest root)))) rfl
        (by decide) ['\n', ' ', ' ']
        ('<' :: (k.data ++ '>' ::
          (escList v.data ++ '<' :: '/' :: (k.data ++ '>' :: renderTail rest root))))
        (scanText_ws_indent _)]
      rw [show f + 3 = (f + 2) + 1 from rfl]
      rw [tokenizeAux_startTagS (f + 2) k
        (escList v.data ++ '<' :: '/' :: (k.data ++ '>' :: renderTail rest root)) [root] hk]
      obtain ⟨e0, etail, hesc, he0⟩ := escChar_cons_ne_lt (v.data.head (by simpa using hvnil))
      have hvd : v.data = v.data.head (by simpa using hvnil) :: v.data.tail :=
        (List.head_cons_tail v.data (by simpa using hvnil)).symm
      have hscan : scanText (escList v.data ++
          '<' :: '/' :: (k.data ++ '>' :: renderTail rest root)) none =
          .ok (v.data, '<' :: '/' :: (k.data ++ '>' :: renderTail rest root)) :=
        scanText_escList v.data _ hv
      have hshape : escList v.data ++ '<' :: '/' :: (k.data ++ '>' :: renderTail rest root) =
          e0 :: (etail ++ (escList v.data.tail ++
            '<' :: '/' :: (k.data ++ '>' :: renderTail rest root))) := by
        conv_lhs => rw [hvd, escList_cons, hesc]
        simp [List.append_assoc]
      rw [show f + 2 = (f + 1) + 1 from rfl]
      rw [tokenizeAux_text (f + 1) _ (k :: [root])
        e0 (etail ++ (escList v.data.tail ++
          '<' :: '/' :: (k.data ++ '>' :: renderTail rest root))) hshape he0
        v.data ('<' :: '/' :: (k.data ++ '>' :: renderTail rest root)) hscan]
      rw [tokenizeAux_endTagS f k (renderTail rest root) [root] hk]
      rw [ihrest f (by omega)]
      simp [childToks, hvnil, Except.map]

theorem tokenizeAux_close (root : String) (hroot : validName root = true) :
    ∀ fuel, 1 < fuel →
    tokenizeAux fuel ('<' :: '/' :: (root.data ++ '>' :: [])) [root] = .ok [Tok.stop root] := by
  intro fuel hf
  obtain ⟨f, rfl⟩ : ∃ f, fuel = f + 2 := ⟨fuel - 2, by omega⟩
  rw [show f + 2 = (f + 1) + 1 from rfl]
  rw [tokenizeAux_endTagS (f + 1) root [] [] hroot]
  simp [tokenizeAux, Except.map]

/-- Tokenizing the full rendered document. -/
theorem tokenize_render (root : String) (pairs : List (String × String))
    (hroot : validName root = true)
    (hp : ∀ p ∈ pairs, validName p.1 = true ∧ validText p.2 = true) :
    tokenize (render root pairs) =
      .ok (Tok.start root ::
        (childToks pairs ++
          ((if pairs.isEmpty then [] else [Tok.text "\n"]) ++ [Tok.stop root]))) := by
  unfold tokenize
  cases pairs with
  | nil =>
    rw [render_data_nil]
    rw [tokenizeAux_startTagS _ root _ [] hroot]
    rw [tokenizeAux_close root hroot _ (by simp)]
    simp [childToks, Except.map]
  | cons p rest =>
    rw [render_data_cons root (p :: rest) (by simp)]
    rw [tokenizeAux_startTagS _ root _ [] hroot]
    rw [tokenizeAux_renderTail root hroot (p :: rest) hp _ (by simp; omega)]
    simp [Except.map, List.append_assoc]

theorem unmarshalLoop_text (fuel : Nat) (s : String) (r : List Tok) (cfg : Config) :
    unmarshalLoop (fuel + 1) (Tok.text s :: r) cfg = unmarshalLoop fuel r cfg := rfl

theorem unmarshalLoop_stop (fuel : Nat) (n : String) (r : List Tok) (cfg : Config) :
    unmarshalLoop (fuel + 1) (Tok.stop n :: r) cfg = unmarshalLoop fuel r cfg := rfl

theorem unmarshalLoop_start (fuel : Nat) (n : String) (r : List Tok) (cfg : Config) :
    unmarshalLoop (fuel + 1) (Tok.start n :: r) cfg =
      unmarshalLoop fuel (decodeElem (r.length + 1) r).2
        ⟨mapInsert cfg.Properties n (decodeElem (r.length + 1) r).1, cfg.Keys ++ [n]⟩ := rfl

theorem unmarshalLoop_nil (fuel : Nat) (cfg : Config) :
    unmarshalLoop (fuel + 1) [] cfg = cfg := rfl

theorem decodeElem_stop (fuel : Nat) (n : String) (r : List Tok) :
    decodeElem (fuel + 1) (Tok.stop n :: r) = ("", r) := rfl

theorem decodeElem_text (fuel : Nat) (s : String) (r : List Tok) :
    decodeElem (fuel + 1) (Tok.text s :: r) =
      ((s ++ (decodeElem fuel r).1 : String), (decodeElem fuel r).2) := rfl

/-- Feeding the children's token stream through the `UnmarshalXML` loop
stores each (name, text) pair in order; the trailing whitespace and the
root's end token are ignored. -/
theorem unmarshalLoop_children (pairs : List (String × String)) :
    ∀ (cfg : Config) (t r : String) (fuel : Nat),
    (childToks pairs).length + 2 < fuel →
    unmarshalLoop fuel (childToks pairs ++ [Tok.text t, Tok.stop r]) cfg =
      pairs.foldl (fun c p => ⟨mapInsert c.Properties p.1 p.2, c.Keys ++ [p.1]⟩) cfg := by
  induction pairs with
  | nil =>
    intro cfg t r fuel hf
    obtain ⟨f, rfl⟩ : ∃ f, fuel = f + 3 := ⟨fuel - 3, by omega⟩
    show unmarshalLoop ((f + 2) + 1) _ cfg = _
    rw [childToks, List.nil_append, unmarshalLoop_text]
    rw [show f + 2 = (f + 1) + 1 from rfl, unmarshalLoop_stop]
    exact unmarshalLoop_nil f cfg
  | cons p rest ih =>
    intro cfg t r fuel hf
    obtain ⟨k, v⟩ := p
    rw [childToks] at hf ⊢
    by_cases hv : v.data = []
    · have hveq : v = "" := by
        cases v with
        | mk d =>
          simp only at hv
          subst hv
          rfl
      have htoks : (if v.data = [] then ([] : List Tok) else [Tok.text v]) = [] := by
        rw [if_pos hv]
      rw [htoks] at hf ⊢
      simp only [List.nil_append, List.cons_append, List.length_cons] at hf ⊢
      obtain ⟨f, rfl⟩ : ∃ f, fuel = f + 2 := ⟨fuel - 2, by omega⟩
      rw [show f + 2 = (f + 1) + 1 from rfl, unmarshalLoop_text]
      rw [unmarshalLoop_start]
      simp only [List.length_cons, decodeElem_stop]
      rw [ih _ t r f (by omega)]
      rw [hveq]
      rfl
    · have htoks : (if v.data = [] then ([] : List Tok) else [Tok.text v]) = [Tok.text v] := by
        rw [if_neg hv]
      rw [htoks] at hf ⊢
      simp only [List.nil_append, List.cons_append, List.length_cons] at hf ⊢
      obtain ⟨f, rfl⟩ : ∃ f, fuel = f + 2 := ⟨fuel - 2, by omega⟩
      rw [show f + 2 = (f + 1) + 1 from rfl, unmarshalLoop_text]
      rw [unmarshalLoop_start]
      simp only [List.length_cons, decodeElem_text, decodeElem_stop]
      rw [ih _ t r f (by omega)]
      simp

/-- Decoding the canonical rendering of `pairs` under any valid root name
succeeds and produces exactly the document built from `pairs`. -/
theorem decode_render (root : String) (pairs : List (String × String))
    (hroot : validName root = true)
    (hp : ∀ p ∈ pairs, validName p.1 = true ∧ validText p.2 = true) :
    decode (render root pairs) = .ok (mkDoc pairs) := by
  unfold decode
  rw [tokenize_render root pairs hroot hp]
  cases pairs with
  | nil =>
    simp [childToks, Tok.isText, unmarshalLoop, mkDoc]
  | cons p rest =>
    simp only [List.isEmpty_cons, Tok.isText, List.dropWhile_cons, Bool.false_eq_true,
      if_false, List.singleton_append]
    rw [unmarshalLoop_children (p :: rest) ⟨[], []⟩ "\n" root _ (by simp)]
    rfl

theorem foldl_set_keys (pairs : List (String × String)) : ∀ cfg : Config,
    (pairs.foldl (fun c p => ⟨mapInsert c.Properties p.1 p.2, c.Keys ++ [p.1]⟩) cfg).Keys =
      cfg.Keys ++ pairs.map Prod.fst := by
  induction pairs with
  | nil => intro cfg; simp
  | cons p t ih =>
    intro cfg
    simp [List.foldl_cons, ih, List.append_assoc]

theorem mkDoc_keys (pairs : List (String × String)) :
    (mkDoc pairs).Keys = pairs.map Prod.fst := by
  have h := foldl_set_keys pairs ⟨[], []⟩
  simpa [mkDoc] using h

theorem lastAssigned_foldl_acc (k : String) (l : List (String × String)) :
    ∀ acc : Option String,
    l.foldl (fun acc p => if p.1 = k then some p.2 else acc) acc =
      match lastAssigned l k with
      | some v => some v
      | none => acc := by
  induction l with
  | nil => intro acc; rfl
  | cons p t ih =>
    obtain ⟨a, b⟩ := p
    intro acc
    show t.foldl _ (if a = k then some b else acc) = _
    rw [ih]
    show _ = match t.foldl _ (if a = k then some b else none) with
      | some v => some v
      | none => acc
    rw [ih]
    rcases lastAssigned t k with - | v
    · by_cases hak : a = k <;> simp [hak]
    · rfl

theorem lastAssigned_cons (a b k : String) (l : List (String × String)) :
    lastAssigned ((a, b) :: l) k =
      match lastAssigned l k with
      | some v => some v
      | none => if a = k then some b else none := by
  show l.foldl _ (if a = k then some b else none) = _
  rw [lastAssigned_foldl_acc]

theorem foldl_set_lookup (pairs : List (String × String)) : ∀ (cfg : Config) (k : String),
    mapLookup
      (pairs.foldl (fun c p => ⟨mapInsert c.Properties p.1 p.2, c.Keys ++ [p.1]⟩) cfg).Properties
      k =
      match lastAssigned pairs k with
      | some v => some v
      | none => mapLookup cfg.Properties k := by
  induction pairs with
  | nil => intro cfg k; rfl
  | cons p t ih =>
    obtain ⟨a, b⟩ := p
    intro cfg k
    rw [List.foldl_cons, ih, lastAssigned_cons]
    rcases lastAssigned t k with - | v
    · show mapLookup (mapInsert cfg.Properties a b) k = _
      rw [mapLookup_insert]
      by_cases hak : a = k <;> simp [hak]
    · rfl

theorem mkDoc_lookup (pairs : List (String × String)) (k : String) :
    mapLookup (mkDoc pairs).Properties k = lastAssigned pairs k := by
  have h := foldl_set_lookup pairs ⟨[], []⟩ k
  rw [mkDoc, h]
  rcases lastAssigned pairs k with - | v <;> rfl

theorem mapValues_lastAssigned (keys : List String) (w : String → String) (k0 : String) :
    lastAssigned (keys.map fun k => (k, w k)) k0 =
      if k0 ∈ keys then some (w k0) else none := by
  induction keys with
  | nil => simp [lastAssigned]
  | cons a t ih =>
    rw [List.map_cons, lastAssigned_cons, ih]
    by_cases hmem : k0 ∈ t
    · simp [hmem]
    · by_cases hak : a = k0
      · subst hak
        simp [hmem]
      · have hka : ¬k0 = a := fun h => hak h.symm
        have hnm : ¬k0 ∈ a :: t := by simp [hmem, hka]
        simp [hmem, hak, hnm]

theorem mapLookup_mem (m : List (String × String)) (k v : String)
    (h : mapLookup m k = some v) : (k, v) ∈ m := by
  induction m with
  | nil => exact absurd h (by simp [mapLookup])
  | cons p t ih =>
    obtain ⟨a, b⟩ := p
    by_cases hak : a = k
    · subst hak
      rw [mapLookup, if_pos rfl] at h
      simp only [Option.some.injEq] at h
      subst h
      exact List.mem_cons_self _ _
    · rw [mapLookup, if_neg hak] at h
      exact List.mem_cons_of_mem _ (ih h)

theorem nodup_not_all_eq (a b : String) (t : List String) (c : String)
    (hnd : (a :: b :: t).Nodup) (hall : (a :: b :: t).all (· = c) = true) : False := by
  simp only [List.all_cons, Bool.and_eq_true, decide_eq_true_eq] at hall
  obtain ⟨ha, hb, -⟩ := hall
  have hab : a ≠ b := by
    have h1 := List.nodup_cons.1 hnd
    intro hab
    exact h1.1 (hab ▸ List.mem_cons_self b t)
  exact hab (ha.trans hb.symm)

/-! ## Claim theorems -/

/-- C2 counterexample: the input `<Config><A>1</A><A>2</A></Config>` is
well-formed, yet `UnmarshalXML` appends to `Keys` unconditionally (main.go
line 58), so the decoded document has `order = [A, A]` — a duplicate — and
order length 2 against 1 entry. -/
theorem c2_counterexample_duplicate_child :
    decode "<Config><A>1</A><A>2</A></Config>" = .ok ⟨[("A", "2")], ["A", "A"]⟩ ∧
    ¬ (["A", "A"] : List String).Nodup ∧
    (["A", "A"] : List String).length ≠ ([("A", "2")] : List (String × String)).length := by
  refine ⟨by decide, by decide, by decide⟩

/-- C2 as amended: for every document obtained by decoding a well-formed
input and applying any sequence of Override Engine updates, the name set
of `order` equals the key set of `entries` and the entries carry each key
once; when the input's child names are distinct (equivalently, the decoded
`order` has no duplicates — which the original claim asserted always
holds), `order` length equals the number of entries. -/
theorem c2_amended_order_entries_invariant (s : String) (d : Config)
    (h : decode s = .ok d) (updates : List (List String × String)) :
    (applyUpdates updates d).Keys = d.Keys ∧
    (applyUpdates updates d).Keys.toFinset =
      ((applyUpdates updates d).Properties.map Prod.fst).toFinset ∧
    ((applyUpdates updates d).Properties.map Prod.fst).Nodup ∧
    (d.Keys.Nodup →
      (applyUpdates updates d).Keys.length = (applyUpdates updates d).Properties.length) := by
  obtain ⟨hset, hnd⟩ := decode_wf s d h
  obtain ⟨hk, hp⟩ := applyUpdates_preserves updates d
  refine ⟨hk, ?_, ?_, ?_⟩
  · rw [hk, hp, hset]
  · rwa [hp]
  · intro hnodup
    rw [hk]
    have h1 : d.Keys.length = d.Keys.toFinset.card :=
      (List.toFinset_card_of_nodup hnodup).symm
    have h2 : (d.Properties.map Prod.fst).toFinset.card =
        (d.Properties.map Prod.fst).length :=
      List.toFinset_card_of_nodup hnd
    have h3 : (applyUpdates updates d).Properties.length = d.Properties.length := by
      have := congrArg List.length hp
      simpa using this
    rw [h1, hset, h2, List.length_map, h3]

/-- C2 amended witness: decode `<Config><A>1</A></Config>` (distinct child
names) and apply one override; order and entries stay aligned. -/
theorem c2_amended_order_entries_invariant_witness :
    (["A"] : List String).Nodup ∧
    (applyUpdates [(["CONFIGARR__X=A=2"], "CONFIGARR__")]
        ⟨[("A", "1")], ["A"]⟩).Keys.length =
      (applyUpdates [(["CONFIGARR__X=A=2"], "CONFIGARR__")]
        ⟨[("A", "1")], ["A"]⟩).Properties.length :=
  ⟨by decide,
    (c2_amended_order_entries_invariant "<Config><A>1</A></Config>" ⟨[("A", "1")], ["A"]⟩
      (by decide) [(["CONFIGARR__X=A=2"], "CONFIGARR__")]).2.2.2 (by decide)⟩

/-- C3: the override engine computes exactly the spec's six-step
algorithm: same final document and same change mapping; the mapping
contains `k ↦ v` iff the six-step processing applied `k ↦ v` as the last
differing assignment to `k`; and the final entries are the original
entries overridden by the mapping. -/
theorem c3_update_matches_spec_algorithm (environ : List String) (cfg : Config)
    (pfx : String) :
    updateConfigWithEnv environ cfg pfx =
      ((specOverride (strToUpper pfx) environ cfg [] []).1,
        (specOverride (strToUpper pfx) environ cfg [] []).2.1) ∧
    (∀ k v, mapLookup (updateConfigWithEnv environ cfg pfx).2 k = some v ↔
      lastAssigned (specOverride (strToUpper pfx) environ cfg [] []).2.2 k = some v) ∧
    (∀ k, mapLookup (updateConfigWithEnv environ cfg pfx).1.Properties k =
      overrideWith cfg.Properties (updateConfigWithEnv environ cfg pfx).2 k) := by
  have heq := updateAux_eq_specOverride (strToUpper pfx) environ cfg [] []
  have hmap := specOverride_mapping_eq_lastAssigned (strToUpper pfx) environ cfg [] []
    (fun _ => rfl)
  have hov := specOverride_lookup_override (strToUpper pfx) environ cfg.Properties cfg [] []
    (fun _ => rfl)
  have hcode : updateConfigWithEnv environ cfg pfx = updateAux (strToUpper pfx) environ cfg [] :=
    rfl
  refine ⟨hcode.trans heq, fun k v => ?_, fun k => ?_⟩
  · rw [hcode, heq]
    rw [hmap k]
  · rw [hcode, heq]
    exact hov k

/-- C6: an environment variable that matches the prefix and parses to an
existing key whose current value equals the proposed value is a complete
no-op: wherever it occurs, processing it leaves the document (entries and
order), the change mapping, and the rest of the run unchanged. -/
theorem c6_identical_value_is_noop (envPfx raw : String) (cfg : Config)
    (changed : List (String × String)) (rest : List String)
    (idp kv k v : String)
    (hpre : strHasPrefix raw envPfx = true)
    (hs1 : splitN2 (raw.drop envPfx.length) = some (idp, kv))
    (hs2 : splitN2 kv = some (k, v))
    (hcur : mapLookup cfg.Properties k = some v) :
    updateAux envPfx (raw :: rest) cfg changed = updateAux envPfx rest cfg changed := by
  conv_lhs => rw [updateAux.eq_def]
  simp [hpre, hs1, hs2, hcur]

/-- C6 witness: `CONFIGARR__X=LogLevel=info` against a document whose
`LogLevel` is already `info` changes nothing and records nothing. -/
theorem c6_identical_value_is_noop_witness :
    updateAux "CONFIGARR__" ["CONFIGARR__X=LogLevel=info"]
        ⟨[("LogLevel", "info")], ["LogLevel"]⟩ [] =
      (⟨[("LogLevel", "info")], ["LogLevel"]⟩, []) :=
  c6_identical_value_is_noop "CONFIGARR__" "CONFIGARR__X=LogLevel=info"
    ⟨[("LogLevel", "info")], ["LogLevel"]⟩ [] [] "X" "LogLevel=info" "LogLevel" "info"
    (by decide) (by decide) (by decide) (by decide)

/-- C9: when the environment contains two or more well-formed matching
variables targeting the same existing key with pairwise-distinct values,
processing is strictly in list order: the document's final value for the
key and its entry in the change mapping are the last proposed value (the
last variable whose value differed from the then-current value). -/
theorem c9_last_variable_wins (environ : List String) (cfg : Config)
    (pfx K c : String)
    (hcur : mapLookup cfg.Properties K = some c)
    (hlen : 2 ≤ (valuesFor (strToUpper pfx) K environ).length)
    (hnd : (valuesFor (strToUpper pfx) K environ).Nodup) :
    mapLookup (updateConfigWithEnv environ cfg pfx).1.Properties K =
      (valuesFor (strToUpper pfx) K environ).getLast? ∧
    mapLookup (updateConfigWithEnv environ cfg pfx).2 K =
      (valuesFor (strToUpper pfx) K environ).getLast? := by
  have hne : valuesFor (strToUpper pfx) K environ ≠ [] := by
    intro h
    rw [h] at hlen
    simp at hlen
  have hA := updateAux_procK (strToUpper pfx) environ cfg [] K c hcur
  have hB := procK_getLast (valuesFor (strToUpper pfx) K environ) c
    (mapLookup [] K) hne
  have hcode : updateConfigWithEnv environ cfg pfx =
      updateAux (strToUpper pfx) environ cfg [] := rfl
  refine ⟨?_, ?_⟩
  · rw [hcode, hA.1, hB.1]
  · rw [hcode, hA.2]
    rcases hB.2 with h | ⟨hall, -⟩
    · exact h
    · exfalso
      rcases hv : valuesFor (strToUpper pfx) K environ with - | ⟨a, t1⟩
      · exact hne hv
      · rcases t1 with - | ⟨b, t⟩
        · rw [hv] at hlen
          simp at hlen
        · rw [hv] at hnd hall
          exact nodup_not_all_eq a b t c hnd hall

/-- C9 witness: `CONFIGARR__A=K=1` then `CONFIGARR__B=K=2` against `K=0`;
the later variable wins in both document and change mapping. -/
theorem c9_last_variable_wins_witness :
    mapLookup (updateConfigWithEnv ["CONFIGARR__A=K=1", "CONFIGARR__B=K=2"]
        ⟨[("K", "0")], ["K"]⟩ "CONFIGARR__").1.Properties "K" = some "2" ∧
    mapLookup (updateConfigWithEnv ["CONFIGARR__A=K=1", "CONFIGARR__B=K=2"]
        ⟨[("K", "0")], ["K"]⟩ "CONFIGARR__").2 "K" = some "2" := by
  have h := c9_last_variable_wins ["CONFIGARR__A=K=1", "CONFIGARR__B=K=2"]
    ⟨[("K", "0")], ["K"]⟩ "CONFIGARR__" "K" "0" (by decide) (by decide) (by decide)
  exact ⟨h.1.trans (by decide), h.2.trans (by decide)⟩

/-- C4 counterexample: the document with the single key `A B` satisfies
the data-model invariant and has a valid text value, yet the encoder
emits `<A B>x</A B>` (Go's encoder does not validate names) and decoding
those bytes fails, so `decode (encode d) = d` does not hold for every
document with valid text values. -/
theorem c4_counterexample_space_in_key :
    validText "x" = true ∧
    (Config.mk [("A B", "x")] ["A B"]).Keys.toFinset =
      ((Config.mk [("A B", "x")] ["A B"]).Properties.map Prod.fst).toFinset ∧
    decode (encode (Config.mk [("A B", "x")] ["A B"])) =
      .error "expected = after attribute name" := by
  refine ⟨by decide, by decide, by decide⟩

/-- C4 as amended: for every document whose key names are valid XML names,
whose text values are valid, and whose `order` and `entries` agree on the
name set, decoding the encoded form yields a document with the same
`order` and extensionally equal `entries`. -/
theorem c4_amended_roundtrip (d : Config)
    (hkeys : ∀ k ∈ d.Keys, validName k = true)
    (hvals : ∀ p ∈ d.Properties, validText p.2 = true)
    (hmem : ∀ k, k ∈ d.Keys ↔ (mapLookup d.Properties k).isSome) :
    ∃ d', decode (encode d) = .ok d' ∧ d'.Keys = d.Keys ∧
      ∀ k, mapLookup d'.Properties k = mapLookup d.Properties k := by
  have hpairs : ∀ p ∈ d.Keys.map (fun k => (k, (mapLookup d.Properties k).getD "")),
      validName p.1 = true ∧ validText p.2 = true := by
    intro p hp
    obtain ⟨k, hk, rfl⟩ := List.mem_map.1 hp
    refine ⟨hkeys k hk, ?_⟩
    obtain ⟨v, hv⟩ := Option.isSome_iff_exists.1 ((hmem k).1 hk)
    rw [hv]
    exact hvals (k, v) (mapLookup_mem _ _ _ hv)
  have hdec : decode (encode d) =
      .ok (mkDoc (d.Keys.map fun k => (k, (mapLookup d.Properties k).getD ""))) :=
    decode_render "Config" _ (by decide) hpairs
  refine ⟨_, hdec, ?_, ?_⟩
  · rw [mkDoc_keys, List.map_map]
    have hid : (Prod.fst ∘ fun k => (k, (mapLookup d.Properties k).getD "")) = id := by
      funext k
      rfl
    rw [hid, List.map_id]
  · intro k
    rw [mkDoc_lookup, mapValues_lastAssigned]
    by_cases hk : k ∈ d.Keys
    · rw [if_pos hk]
      obtain ⟨v, hv⟩ := Option.isSome_iff_exists.1 ((hmem k).1 hk)
      rw [hv]
      rfl
    · rw [if_neg hk]
      have hnone : mapLookup d.Properties k = none := by
        rcases ho : mapLookup d.Properties k with - | v
        · rfl
        · exact absurd ((hmem k).2 (by simp [ho])) hk
      rw [hnone]

/-- C4 amended witness: the two-field example document round-trips. -/
theorem c4_amended_roundtrip_witness :
    ∃ d', decode (encode (Config.mk [("LogLevel", "info"), ("Theme", "dark")]
        ["LogLevel", "Theme"])) = .ok d' ∧
      d'.Keys = ["LogLevel", "Theme"] := by
  obtain ⟨d', h1, h2, -⟩ := c4_amended_roundtrip
    ⟨[("LogLevel", "info"), ("Theme", "dark")], ["LogLevel", "Theme"]⟩
    (by decide) (by decide)
    (by intro k; rw [mapLookup_isSome_iff]; exact Iff.rfl)
  exact ⟨d', h1, h2⟩

/-- C10: decode never looks at the root element's name: rendering the same
flat pairs under any two valid root names decodes successfully to the same
document. -/
theorem c10_root_name_ignored (r1 r2 : String) (pairs : List (String × String))
    (h1 : validName r1 = true) (h2 : validName r2 = true)
    (hp : ∀ p ∈ pairs, validName p.1 = true ∧ validText p.2 = true) :
    decode (render r1 pairs) = .ok (mkDoc pairs) ∧
    decode (render r1 pairs) = decode (render r2 pairs) := by
  have d1 := decode_render r1 pairs h1 hp
  have d2 := decode_render r2 pairs h2 hp
  exact ⟨d1, d1.trans d2.symm⟩

/-- C10 witness: `Config` and `Other` roots around `<A>1</A>` decode to
the same document. -/
theorem c10_root_name_ignored_witness :
    decode (render "Config" [("A", "1")]) = decode (render "Other" [("A", "1")]) ∧
    decode (render "Config" [("A", "1")]) = .ok (mkDoc [("A", "1")]) := by
  have h := c10_root_name_ignored "Config" "Other" [("A", "1")]
    (by decide) (by decide) (by decide)
  exact ⟨h.2, h.1⟩

/-- C5: on input `<Config><LogLevel>info</LogLevel><Theme>dark</Theme></Config>`
with environment `["CONFIGARR__LOG=LogLevel=debug"]` and prefix
`CONFIGARR__`, the pipeline writes exactly
`<Config>\n  <LogLevel>debug</LogLevel>\n  <Theme>dark</Theme>\n</Config>`
(two-space indent, one line per child) and the override engine reports the
change set `{LogLevel ↦ debug}`. -/
theorem c5_scenario_loglevel_debug :
    decode "<Config><LogLevel>info</LogLevel><Theme>dark</Theme></Config>" =
      .ok ⟨[("LogLevel", "info"), ("Theme", "dark")], ["LogLevel", "Theme"]⟩ ∧
    updateConfigWithEnv ["CONFIGARR__LOG=LogLevel=debug"]
        ⟨[("LogLevel", "info"), ("Theme", "dark")], ["LogLevel", "Theme"]⟩ "CONFIGARR__" =
      (⟨[("LogLevel", "debug"), ("Theme", "dark")], ["LogLevel", "Theme"]⟩,
        [("LogLevel", "debug")]) ∧
    run (some "<Config><LogLevel>info</LogLevel><Theme>dark</Theme></Config>")
        false "CONFIGARR__" ["CONFIGARR__LOG=LogLevel=debug"] =
      (.ok (), some "<Config>\n  <LogLevel>debug</LogLevel>\n  <Theme>dark</Theme>\n</Config>") := by
  refine ⟨by decide, by decide, by decide⟩

/-- C7: whenever decoding the file contents fails, `run` surfaces the
failure as a `parseError` (non-success result) and the file contents are
left untouched (no write happens). -/
theorem c7_parse_error_no_write (content : String) (ign : Bool) (pfx : String)
    (environ : List String) (e : String) (h : decode content = .error e) :
    run (some content) ign pfx environ = (.error (.parseError e), some content) := by
  simp [run, h]

/-- C7 witness: the malformed input `<Config><LogLevel>info<LogLevel></Config>`
(mismatched end tag) makes `run` fail with a `parseError` and leaves the
file bytes unchanged. -/
theorem c7_parse_error_no_write_witness :
    run (some "<Config><LogLevel>info<LogLevel></Config>") false "CONFIGARR__"
        ["CONFIGARR__LOG=LogLevel=debug"] =
      (.error (.parseError "unexpected end element"),
        some "<Config><LogLevel>info<LogLevel></Config>") :=
  c7_parse_error_no_write _ false "CONFIGARR__" ["CONFIGARR__LOG=LogLevel=debug"]
    "unexpected end element" (by decide)

/-- C8: with the configuration file absent, `run` succeeds and creates no
file when `ignoreMissingConfig` is set, and fails with the missing-file
error (still creating no file) when it is not. -/
theorem c8_missing_file (ign : Bool) (pfx : String) (environ : List String) :
    run none ign pfx environ =
      (if ign then (.ok (), none) else (.error .missingFile, none)) := by
  cases ign <;> simp [run]

/-- C1: the claim fails on the current `run` (main.go lines 186-215): on a
file that is not in the encoder's pretty-printed form and an environment
producing an empty change set, `run` still rewrites the file, changing its
bytes; the legacy `run` (lines 386-416) skips the write as the spec
demands. -/
theorem c1_empty_changes_still_rewrites :
    decode "<Config><LogLevel>info</LogLevel></Config>" =
      .ok ⟨[("LogLevel", "info")], ["LogLevel"]⟩ ∧
    (updateConfigWithEnv ["OTHER__LOG=LogLevel=debug"]
        ⟨[("LogLevel", "info")], ["LogLevel"]⟩ "CONFIGARR__").2 = [] ∧
    run (some "<Config><LogLevel>info</LogLevel></Config>") false "CONFIGARR__"
        ["OTHER__LOG=LogLevel=debug"] =
      (.ok (), some "<Config>\n  <LogLevel>info</LogLevel>\n</Config>") ∧
    "<Config>\n  <LogLevel>info</LogLevel>\n</Config>" ≠
      "<Config><LogLevel>info</LogLevel></Config>" ∧
    runLegacy (some "<Config><LogLevel>info</LogLevel></Config>") "CONFIGARR__"
        ["OTHER__LOG=LogLevel=debug"] =
      (.ok (), some "<Config><LogLevel>info</LogLevel></Config>") := by
  refine ⟨by decide, by decide, by decide, by decide, by decide⟩

end Configarr
